/-
Verification of the dg linear-algebra kernel layer (feltor):
shallow embedding of the MPI preconditioner/dot-product backend
(inc/dg/mpi_backend/mpi_precon_blas.h), the distributed block matrix
(inc/dg/backend/mpi_matrix.h), the vector-of-vectors reduction
(inc/dg/backend/std_matrix_blas.cuh) and the recursive superaccumulator
reduction (inc/dg/topology/filter.h).

C++ `double` values are embedded as exact rationals `ℚ` (every binary64
value is a rational; the embedded claims concern which formula each
kernel computes, not rounding).  Machine-integer index arithmetic is
embedded as `ℕ`/`ℤ`; an out-of-bounds read is embedded as the default
value 0 and an out-of-bounds write as a no-op (both are undefined
behaviour in the C++ source, so no claim may depend on them).
-/
import Mathlib

/-- Weight / preconditioner object `MPI_Precon`: the source (usage in
mpi_precon_blas.h and mpi_matrix.h) exposes a single member `data`,
a `std::vector<double>` of diagonal weights. -/
structure MPI_Precon where
  data : List ℚ
deriving DecidableEq

/-- Distributed vector `MPI_Vector`.  Its header mpi_vector.h is not part
of the corpus; the fields are the ones the sources read: the local payload
`data`, the logical block shape `Nx`, `Ny`, `Nz` (cells per direction,
including the one-cell ghost/boundary ring in x and y) and the block size
`n` (called `x.stride` by the doDot in mpi_precon_blas.h and `x.n()` by
mpi_matrix.h).  Modelled from the spec: a distributed vector additionally
owns a process-group handle supplied at construction, field `comm`
(communicators are embedded as plain identifiers `ℕ`). -/
structure MPI_Vector where
  data : List ℚ
  Nx : ℕ
  Ny : ℕ
  Nz : ℕ
  n : ℕ
  comm : ℕ
deriving DecidableEq

/-- The implicit global communicator `MPI_COMM_WORLD`, embedded as a fixed
identifier. -/
def MPI_COMM_WORLD : ℕ := 0

/-- Flat index `((k*Ny + i)*Nx + j)*stride + l` used by the doDot of
mpi_precon_blas.h (lines 21-22). -/
def dotIdx (Ny Nx stride k i j l : ℕ) : ℕ :=
  ((k * Ny + i) * Nx + j) * stride + l

/-- Local accumulation loop of `doDot(x, m, y)` (mpi_precon_blas.h lines
16-22): `temp` sums `x.data[idx]*m.data[l]*y.data[idx]` over
`k < x.Nz`, `i` from 1 while `i < x.Ny-1`, `j` from 1 while `j < x.Nx-1`,
`l < x.stride`.  The loop bounds use the same truncated arithmetic as the
C++ `unsigned` bounds for every `Ny, Nx ≥ 1`. -/
def doDotLocal (x : MPI_Vector) (m : MPI_Precon) (y : MPI_Vector) : ℚ :=
  ((List.range x.Nz).map (fun k =>
    ((List.range' 1 (x.Ny - 1 - 1)).map (fun i =>
      ((List.range' 1 (x.Nx - 1 - 1)).map (fun j =>
        ((List.range x.n).map (fun l =>
          x.data.getD (dotIdx x.Ny x.Nx x.n k i j l) 0 * m.data.getD l 0 *
          y.data.getD (dotIdx x.Ny x.Nx x.n k i j l) 0)).sum)).sum)).sum)).sum

/-- Weighted dot product `doDot(x, m, y)` of mpi_precon_blas.h lines 10-26:
the local sum followed by `MPI_Allreduce(&temp, &sum, 1, MPI_DOUBLE,
MPI_SUM, MPI_COMM_WORLD)`.  The allreduce is embedded through an
environment `others` giving, per communicator, the sum of the partial
results of all other ranks of that communicator; the source passes the
literal `MPI_COMM_WORLD`, not a communicator taken from `x`, `y` or a
matrix. -/
def doDot (x : MPI_Vector) (m : MPI_Precon) (y : MPI_Vector)
    (others : ℕ → ℚ) : ℚ :=
  doDotLocal x m y + others MPI_COMM_WORLD

/-- One-argument (norm-form) `doDot(m, x)` of mpi_precon_blas.h lines
27-31.  The body evaluates `doDot(x, m, x, ...)` and discards the value:
the function is declared with return type `Matrix::value_type` but has no
`return` statement, so its return value is undefined; the absent return
value is embedded as `none`. -/
def doDot_norm (m : MPI_Precon) (x : MPI_Vector) (others : ℕ → ℚ) :
    Option ℚ :=
  let _ := doDot x m x others
  none

/-- Read of `l[i]` with a possibly negative (C++ `int`-arithmetic) index:
out of range gives the default 0 (an out-of-range access is undefined
behaviour in the source). -/
def getZ (l : List ℚ) (i : ℤ) : ℚ :=
  if 0 ≤ i then l.getD i.toNat 0 else 0

/-- Write `l[i] = v` with a possibly negative index: out of range is a
no-op (undefined behaviour in the source). -/
def setZ (l : List ℚ) (i : ℤ) (v : ℚ) : List ℚ :=
  if 0 ≤ i then l.set i.toNat v else l

/-- A sequence of `+=` writes, in program order: each pair `(i, v)` stands
for one loop iteration executing `y[i] += v`. -/
def accumList (ws : List (ℤ × ℚ)) (y : List ℚ) : List ℚ :=
  ws.foldl (fun acc w => setZ acc w.1 (getZ acc w.1 + w.2)) y

/-- A sequence of `y[i] = 0` writes, in program order. -/
def zeroWrites (zs : List ℤ) (y : List ℚ) : List ℚ :=
  zs.foldl (fun acc i => setZ acc i 0) y

/-- The loop `for(i = 0; i < size; i++) y[i] = f(i, y[i])`. -/
def writeLoop (size : ℕ) (f : ℕ → ℚ → ℚ) (y : List ℚ) : List ℚ :=
  (List.range size).foldl (fun acc i => acc.set i (f i (acc.getD i 0))) y

lemma getD_set_self (l : List ℚ) (i : ℕ) (v : ℚ) (h : i < l.length) :
    (l.set i v).getD i 0 = v := by
  induction l generalizing i with
  | nil => simp at h
  | cons a as ih =>
    cases i with
    | zero => rfl
    | succ m => exact ih m (by simpa using h)

lemma getD_set_ne (l : List ℚ) (i j : ℕ) (v : ℚ) (h : i ≠ j) :
    (l.set i v).getD j 0 = l.getD j 0 := by
  induction l generalizing i j with
  | nil => simp [List.set]
  | cons a as ih =>
    cases i with
    | zero =>
      cases j with
      | zero => exact absurd rfl h
      | succ mj => rfl
    | succ mi =>
      cases j with
      | zero => rfl
      | succ mj => exact ih mi mj (by omega)

lemma getD_oob (l : List ℚ) (n : ℕ) (h : l.length ≤ n) : l.getD n 0 = 0 := by
  simp [List.getD_eq_getElem?_getD, List.getElem?_eq_none h]

lemma setZ_length (l : List ℚ) (i : ℤ) (v : ℚ) :
    (setZ l i v).length = l.length := by
  unfold setZ; split <;> simp

lemma getZ_setZ_self (l : List ℚ) (i : ℤ) (v : ℚ) (h0 : 0 ≤ i)
    (h1 : i.toNat < l.length) : getZ (setZ l i v) i = v := by
  simp only [getZ, setZ, if_pos h0]
  exact getD_set_self l i.toNat v h1

lemma getZ_setZ_ne (l : List ℚ) (i j : ℤ) (v : ℚ) (h : i ≠ j) :
    getZ (setZ l i v) j = getZ l j := by
  unfold getZ setZ
  by_cases hi : 0 ≤ i
  · by_cases hj : 0 ≤ j
    · simp only [if_pos hi, if_pos hj]
      exact getD_set_ne l i.toNat j.toNat v (by omega)
    · simp [hi, hj]
  · simp [hi]

lemma accumList_length (ws : List (ℤ × ℚ)) (y : List ℚ) :
    (accumList ws y).length = y.length := by
  induction ws generalizing y with
  | nil => rfl
  | cons w rest ih =>
    show (accumList rest _).length = _
    rw [ih, setZ_length]

lemma zeroWrites_length (zs : List ℤ) (y : List ℚ) :
    (zeroWrites zs y).length = y.length := by
  induction zs generalizing y with
  | nil => rfl
  | cons z rest ih =>
    show (zeroWrites rest _).length = _
    rw [ih, setZ_length]

/-- Entrywise value of a `+=` write sequence: at a valid index the result
is the old value plus the sum of all increments aimed at that index. -/
lemma getZ_accumList (ws : List (ℤ × ℚ)) (y : List ℚ) (i : ℤ)
    (h0 : 0 ≤ i) (h1 : i.toNat < y.length) :
    getZ (accumList ws y) i =
      getZ y i + ((ws.filter (fun w => w.1 == i)).map Prod.snd).sum := by
  induction ws generalizing y with
  | nil => simp [accumList]
  | cons w rest ih =>
    have hstep : accumList (w :: rest) y =
        accumList rest (setZ y w.1 (getZ y w.1 + w.2)) := rfl
    rw [hstep]
    have hlen : i.toNat < (setZ y w.1 (getZ y w.1 + w.2)).length := by
      rw [setZ_length]; exact h1
    rw [ih _ hlen]
    by_cases hw : w.1 = i
    · subst hw
      rw [getZ_setZ_self y w.1 _ h0 h1]
      simp only [List.filter_cons, beq_self_eq_true, if_true, List.map_cons,
        List.sum_cons]
      ring
    · rw [getZ_setZ_ne y w.1 i _ hw]
      have hw' : (w.1 == i) = false := by simpa using hw
      simp [List.filter_cons, hw']

/-- Entrywise value of a zero-write sequence: a valid index that occurs in
the list ends up 0, every other index is untouched. -/
lemma getZ_zeroWrites (zs : List ℤ) (y : List ℚ) (i : ℤ)
    (h0 : 0 ≤ i) (h1 : i.toNat < y.length) :
    getZ (zeroWrites zs y) i = if i ∈ zs then 0 else getZ y i := by
  induction zs generalizing y with
  | nil => simp [zeroWrites]
  | cons z rest ih =>
    have hstep : zeroWrites (z :: rest) y = zeroWrites rest (setZ y z 0) := rfl
    have hlen : i.toNat < (setZ y z 0).length := by
      rw [setZ_length]; exact h1
    rw [hstep, ih _ hlen]
    by_cases hmem : i ∈ rest
    · simp [hmem]
    · rw [if_neg hmem]
      by_cases hz : z = i
      · subst hz
        rw [getZ_setZ_self y z 0 h0 h1]
        simp
      · have hni : i ∉ z :: rest := by
          simp only [List.mem_cons]
          push_neg
          exact ⟨fun h => hz h.symm, hmem⟩
        rw [getZ_setZ_ne y z i 0 hz, if_neg hni]

lemma writeLoop_length (size : ℕ) (f : ℕ → ℚ → ℚ) (y : List ℚ) :
    (writeLoop size f y).length = y.length := by
  induction size with
  | zero => rfl
  | succ s ih =>
    unfold writeLoop
    rw [List.range_succ, List.foldl_append]
    show ((writeLoop s f y).set s _).length = _
    rw [List.length_set]
    exact ih

/-- Entrywise value of `for(i = 0; i < size; i++) y[i] = f(i, y[i])`:
each in-range index is written exactly once, from its own old value. -/
lemma writeLoop_getD (size : ℕ) (f : ℕ → ℚ → ℚ) (y : List ℚ) (j : ℕ) :
    (writeLoop size f y).getD j 0 =
      if j < size ∧ j < y.length then f j (y.getD j 0) else y.getD j 0 := by
  induction size with
  | zero => simp [writeLoop]
  | succ s ih =>
    unfold writeLoop
    rw [List.range_succ, List.foldl_append]
    show ((writeLoop s f y).set s (f s ((writeLoop s f y).getD s 0))).getD j 0 = _
    by_cases hj : j = s
    · subst hj
      have hself : (writeLoop j f y).getD j 0 = y.getD j 0 := by
        rw [ih]; simp
      by_cases hlen : j < y.length
      · rw [getD_set_self _ j _ (by rw [writeLoop_length]; exact hlen), hself]
        simp [hlen]
      · rw [List.set_eq_of_length_le (by rw [writeLoop_length]; omega), ih]
        simp [hlen]
    · rw [getD_set_ne _ s j _ (by omega), ih]
      by_cases hc : j < s ∧ j < y.length
      · rw [if_pos hc, if_pos (by omega : j < s + 1 ∧ j < y.length)]
      · rw [if_neg hc, if_neg (by omega : ¬(j < s + 1 ∧ j < y.length))]

/-- Boundary condition enum `dg::bc` (its header is not under src; the
values are the ones the sources name). -/
inductive bc where
  | PER
  | DIR
  | NEU
  | DIR_NEU
  | NEU_DIR
deriving DecidableEq

/-- Boundary-term table `dg::BoundaryTerms` (mpi_matrix.h lines 14-18):
per-block dense coefficients `data_`, 1D row positions `row_` and column
positions `col_` (C++ `int`, hence `ℤ`). -/
structure BoundaryTerms where
  data : List (List ℚ)
  row : List ℤ
  col : List ℤ
deriving DecidableEq

/-- Indices zeroed by the first loop nest of `BoundaryTerms::applyX`
(mpi_matrix.h lines 23-33), in program order: for every block `m`, every
`s < Nz`, `i` from 1 while `i < rows-1`, `k < n`, `l < n` and (redundant)
`q < n`, the entry `(((s*rows+i)*n+k)*cols + row_[m]+1)*n + l`. -/
def applyXZeroIdx (bt : BoundaryTerms) (Nz rows cols n : ℕ) : List ℤ :=
  (List.range bt.data.length).flatMap (fun m =>
  (List.range Nz).flatMap (fun s =>
  (List.range' 1 (rows - 1 - 1)).flatMap (fun i =>
  (List.range n).flatMap (fun k =>
  (List.range n).flatMap (fun l =>
  (List.range n).map (fun _ =>
    (((((s * rows + i) * n + k) * cols : ℕ) : ℤ) + bt.row.getD m 0 + 1) * n
      + l))))))

/-- Accumulation writes of the second loop nest of
`BoundaryTerms::applyX` (mpi_matrix.h lines 34-46), in program order:
`y[(((s*rows+i)*n+k)*cols + row_[m]+1)*n + l] +=
 data_[m][l*n+q] * x[(((s*rows+i)*n+k)*cols + col_[m]+1)*n + q]`. -/
def applyXAccWrites (bt : BoundaryTerms) (xd : List ℚ) (Nz rows cols n : ℕ) :
    List (ℤ × ℚ) :=
  (List.range bt.data.length).flatMap (fun m =>
  (List.range Nz).flatMap (fun s =>
  (List.range' 1 (rows - 1 - 1)).flatMap (fun i =>
  (List.range n).flatMap (fun k =>
  (List.range n).flatMap (fun l =>
  (List.range n).map (fun q =>
    ((((((s * rows + i) * n + k) * cols : ℕ) : ℤ) + bt.row.getD m 0 + 1) * n
       + l,
     (bt.data.getD m []).getD (l * n + q) 0 *
       getZ xd ((((((s * rows + i) * n + k) * cols : ℕ) : ℤ)
         + bt.col.getD m 0 + 1) * n + q))))))))

/-- `BoundaryTerms::applyX(x, y)` (mpi_matrix.h lines 19-47): if the table
is empty return `y` unchanged, otherwise zero every targeted entry, then
accumulate the boundary products into the targeted entries. -/
def applyX (bt : BoundaryTerms) (x : MPI_Vector) (y : List ℚ) : List ℚ :=
  if bt.data = [] then y
  else accumList (applyXAccWrites bt x.data x.Nz x.Ny x.Nx x.n)
    (zeroWrites (applyXZeroIdx bt x.Nz x.Ny x.Nx x.n) y)

/-- Indices zeroed by the first loop nest of `BoundaryTerms::applyY`
(mpi_matrix.h lines 53-63): for every block `m`, `s < Nz`, `k < n`,
`j` from 1 while `j < cols-1`, `l < n` and (redundant) `p < n`, the entry
`(((s*rows+row_[m]+1)*n+k)*cols + j)*n + l`. -/
def applyYZeroIdx (bt : BoundaryTerms) (Nz rows cols n : ℕ) : List ℤ :=
  (List.range bt.data.length).flatMap (fun m =>
  (List.range Nz).flatMap (fun s =>
  (List.range n).flatMap (fun k =>
  (List.range' 1 (cols - 1 - 1)).flatMap (fun j =>
  (List.range n).flatMap (fun l =>
  (List.range n).map (fun _ =>
    (((((s * rows : ℕ) : ℤ) + bt.row.getD m 0 + 1) * n + k) * cols + j) * n
      + l))))))

/-- Accumulation writes of the second loop nest of
`BoundaryTerms::applyY` (mpi_matrix.h lines 64-76):
`y[(((s*rows+row_[m]+1)*n+k)*cols + j)*n + l] +=
 data_[m][k*n+p] * x[(((s*rows+col_[m]+1)*n+p)*cols + j)*n + l]`. -/
def applyYAccWrites (bt : BoundaryTerms) (xd : List ℚ) (Nz rows cols n : ℕ) :
    List (ℤ × ℚ) :=
  (List.range bt.data.length).flatMap (fun m =>
  (List.range Nz).flatMap (fun s =>
  (List.range n).flatMap (fun k =>
  (List.range' 1 (cols - 1 - 1)).flatMap (fun j =>
  (List.range n).flatMap (fun l =>
  (List.range n).map (fun p =>
    ((((((s * rows : ℕ) : ℤ) + bt.row.getD m 0 + 1) * n + k) * cols + j) * n
       + l,
     (bt.data.getD m []).getD (k * n + p) 0 *
       getZ xd ((((((s * rows : ℕ) : ℤ) + bt.col.getD m 0 + 1) * n + p)
         * cols + j) * n + l))))))))

/-- `BoundaryTerms::applyY(x, y)` (mpi_matrix.h lines 49-77). -/
def applyY (bt : BoundaryTerms) (x : MPI_Vector) (y : List ℚ) : List ℚ :=
  if bt.data = [] then y
  else accumList (applyYAccWrites bt x.data x.Nz x.Ny x.Nx x.n)
    (zeroWrites (applyYZeroIdx bt x.Nz x.Ny x.Nx x.n) y)

/-- Block matrix `dg::MPI_Matrix` (mpi_matrix.h lines 86-125): an optional
diagonal preconditioner `p_`, one line of y- and x-direction coefficient
blocks `dataY_`, `dataX_` with per-block offsets `offset_` (C++ `int`),
boundary-term tables `xterm_`, `yterm_`, boundary conditions and the
communicator handed to the constructor. -/
structure MPI_Matrix where
  p : MPI_Precon
  dataY : List (List ℚ)
  dataX : List (List ℚ)
  offset : List ℤ
  xterm : BoundaryTerms
  yterm : BoundaryTerms
  bcx : bc
  bcy : bc
  comm : ℕ
deriving DecidableEq

/-- The flag loop of `MPI_Matrix::symv` (mpi_matrix.h lines 133-140):
`updateX`/`updateY` start false; for every `k < dataX_.size()`, a
non-empty `dataY_[k]` sets `updateY`, a non-empty `dataX_[k]` sets
`updateX`.  First component `updateX`, second `updateY`. -/
def symvUpdateXY (mat : MPI_Matrix) : Bool × Bool :=
  (List.range mat.dataX.length).foldl
    (fun fl k =>
      ((if mat.dataX.getD k [] = [] then fl.1 else true),
       (if mat.dataY.getD k [] = [] then fl.2 else true)))
    (false, false)

/-- Accumulation writes of the x-direction block loop of
`MPI_Matrix::symv` (mpi_matrix.h lines 153-164) for one block `d` with
offset `off`, in loop order `s, i, k, j, l, q`:
`y[(((s*rows+i)*n+k)*cols + j)*n + l] +=
 d[l*n+q] * x[(((s*rows+i)*n+k)*cols + j)*n + q + offset]`. -/
def dataXWrites (d : List ℚ) (off : ℤ) (xd : List ℚ)
    (Nz rows cols n : ℕ) : List (ℤ × ℚ) :=
  (List.range Nz).flatMap (fun s =>
  (List.range' 1 (rows - 1 - 1)).flatMap (fun i =>
  (List.range n).flatMap (fun k =>
  (List.range' 1 (cols - 1 - 1)).flatMap (fun j =>
  (List.range n).flatMap (fun l =>
  (List.range n).map (fun q =>
    (((((s * rows + i) * n + k) * cols + j) * n + l : ℕ),
     d.getD (l * n + q) 0 *
       getZ xd (((((s * rows + i) * n + k) * cols + j) * n + q : ℕ) + off))))))))

/-- Accumulation writes of the y-direction block loop of
`MPI_Matrix::symv` (mpi_matrix.h lines 165-176) for one block `d` with
offset `off`, in loop order `s, i, k, j, l, p`:
`y[(((s*rows+i)*n+k)*cols + j)*n + l] +=
 d[k*n+p] * x[(((s*rows+i)*n+p)*cols + j)*n + l + offset]`. -/
def dataYWrites (d : List ℚ) (off : ℤ) (xd : List ℚ)
    (Nz rows cols n : ℕ) : List (ℤ × ℚ) :=
  (List.range Nz).flatMap (fun s =>
  (List.range' 1 (rows - 1 - 1)).flatMap (fun i =>
  (List.range n).flatMap (fun k =>
  (List.range' 1 (cols - 1 - 1)).flatMap (fun j =>
  (List.range n).flatMap (fun l =>
  (List.range n).map (fun p =>
    (((((s * rows + i) * n + k) * cols + j) * n + l : ℕ),
     d.getD (k * n + p) 0 *
       getZ xd (((((s * rows + i) * n + p) * cols + j) * n + l : ℕ) + off))))))))

/-- The block loop of `MPI_Matrix::symv` (mpi_matrix.h lines 151-177):
for every block index `m`, apply the x-direction writes if `dataX_[m]` is
non-empty, then the y-direction writes if `dataY_[m]` is non-empty. -/
def localApply (mat : MPI_Matrix) (xd : List ℚ) (Nz rows cols n : ℕ)
    (y : List ℚ) : List ℚ :=
  (List.range mat.dataX.length).foldl
    (fun acc m =>
      (fun acc1 =>
        if mat.dataY.getD m [] = [] then acc1
        else accumList
          (dataYWrites (mat.dataY.getD m []) (mat.offset.getD m 0) xd
            Nz rows cols n) acc1)
      (if mat.dataX.getD m [] = [] then acc
       else accumList
         (dataXWrites (mat.dataX.getD m []) (mat.offset.getD m 0) xd
           Nz rows cols n) acc))
    y

/-- Two-argument preconditioner application `doSymv(m, x, y)` of
mpi_precon_blas.h lines 65-78: `for(i = 0; i < size; i++)
y[i] = m.data[i%stride]*x[i]` with `stride = m.data.size()` and
`size = x.data.size()`.  At its call site in `MPI_Matrix::symv` the
arguments `x` and `y` alias the same vector; since iteration `i` reads
only position `i` and writes position `i` once, the aliased C++ loop
computes the same result as this pure version reading the original `x`. -/
def doSymv2 (m : MPI_Precon) (x y : List ℚ) : List ℚ :=
  writeLoop x.length
    (fun i _ => m.data.getD (i % m.data.length) 0 * x.getD i 0) y

/-- `MPI_Matrix::symv(x, y)` (mpi_matrix.h lines 129-183).  The ghost
exchanges `x.x_col(comm_)` and `x.x_row(comm_)` live in the missing
mpi_vector.h and are taken as an environment `xcol`, `xrow` (arguments:
the communicator the source passes, then the vector).  Returns the output
vector together with the exchange trace: for each direction, `some c`
when the exchange was performed with communicator `c`, `none` when it was
not performed.  Steps, in source order: flag loop and conditional
exchanges, zeroing of all of `y`, block loop, `xterm_.applyX`,
`yterm_.applyY`, and the preconditioner scale iff `p_.data` is
non-empty. -/
def symv (xcol xrow : ℕ → MPI_Vector → MPI_Vector) (mat : MPI_Matrix)
    (x y : MPI_Vector) : MPI_Vector × (Option ℕ × Option ℕ) :=
  let fl := symvUpdateXY mat
  let x1 := if fl.1 then xcol mat.comm x else x
  let x2 := if fl.2 then xrow mat.comm x1 else x1
  let y0 : List ℚ := List.replicate y.data.length 0
  let y1 := localApply mat x2.data x2.Nz x2.Ny x2.Nx x2.n y0
  let y2 := applyX mat.xterm x2 y1
  let y3 := applyY mat.yterm x2 y2
  let y4 := if mat.p.data = [] then y3 else doSymv2 mat.p y3 y3
  ({ y with data := y4 },
   ((if fl.1 then some mat.comm else none),
    (if fl.2 then some mat.comm else none)))

/-- Stages 1-3 of `MPI_Matrix::symv` — conditional ghost exchange, zeroing
plus block loop, boundary correction — without the final preconditioner
stage; used to state where in the pipeline the preconditioner acts. -/
def symvPrePrecon (xcol xrow : ℕ → MPI_Vector → MPI_Vector)
    (mat : MPI_Matrix) (x y : MPI_Vector) : List ℚ :=
  let fl := symvUpdateXY mat
  let x1 := if fl.1 then xcol mat.comm x else x
  let x2 := if fl.2 then xrow mat.comm x1 else x1
  let y0 : List ℚ := List.replicate y.data.length 0
  let y1 := localApply mat x2.data x2.Nz x2.Ny x2.Nx x2.n y0
  let y2 := applyX mat.xterm x2 y1
  applyY mat.yterm x2 y2

/-- Elementwise `axpby`.  Modelled from the spec: the MPI doAxpby called
by `doSymv` (mpi_precon_blas.h line 50) is not under src; the spec's
elementwise contract is `y ← alpha·x + beta·y`. -/
def doAxpby (a : ℚ) (x : MPI_Vector) (b : ℚ) (y : MPI_Vector) :
    MPI_Vector :=
  let d := (List.range y.data.length).map
    (fun i => a * x.data.getD i 0 + b * y.data.getD i 0)
  { y with data := d }

/-- Five-argument `doSymv(alpha, m, x, beta, y)` of mpi_precon_blas.h
lines 33-63: if `alpha == 0` return at once when `beta == 1`, otherwise
delegate to `doAxpby(0, x, beta, y)`; else
`for(i = 0; i < size; i++) y[i] = alpha*m.data[i%stride]*x[i] + beta*y[i]`
with `stride = m.data.size()`, `size = x.data.size()`. -/
def doSymv (alpha : ℚ) (m : MPI_Precon) (x : MPI_Vector) (beta : ℚ)
    (y : MPI_Vector) : MPI_Vector :=
  if alpha = 0 then
    if beta = 1 then y
    else doAxpby 0 x beta y
  else
    let d := writeLoop x.data.length
      (fun i cur => alpha * m.data.getD (i % m.data.length) 0 *
        x.data.getD i 0 + beta * cur)
      y.data
    { y with data := d }

/-- Error conditions used to embed fallible reduction code: a failed
debug assertion (`assert`, active only under DG_DEBUG), an out-of-bounds
container access, and the InvalidArgument condition that the
specification names. -/
inductive DgError where
  | assertFail
  | outOfBounds
  | invalidArgument
deriving DecidableEq

/-- Shared-memory dot-product superaccumulator.  Modelled from the spec:
the per-component `doDot_superacc` called at filter.h line 1165 (the
exblas staged accumulator, not under src) exactly represents the sum of
products of its inputs; its state is embedded as that exact rational
value. -/
def doDot_superacc_shared (x y : List ℚ) : ℚ :=
  (List.zipWith (fun a b => a * b) x y).sum

/-- Recursive `doDot_superacc(x1, x2, VectorVectorTag)` of filter.h lines
1153-1176.  `dbg` is the DG_DEBUG compile switch: when set, the function
asserts `!x1.empty()` and `x1.size() == x2.size()` (filter.h lines
1159-1162); the asserts are compiled out otherwise.  The body fills one
accumulator per component, merges components 1.. into component 0
(Normalize plus limb-wise addition, filter.h lines 1166-1174, modelled
from the spec as exact addition) and returns `acc[0]` — for empty `x1`
an out-of-bounds access. -/
def doDot_superacc (dbg : Bool) (x1 x2 : List (List ℚ)) :
    Except DgError ℚ :=
  if dbg && x1.isEmpty then Except.error DgError.assertFail
  else if dbg && (x1.length != x2.length) then Except.error DgError.assertFail
  else
    match (List.range x1.length).map
      (fun i => doDot_superacc_shared (x1.getD i []) (x2.getD i [])) with
    | [] => Except.error DgError.outOfBounds
    | a :: rest => Except.ok (rest.foldl (fun s t => s + t) a)

/-- Vector-of-vectors `doDot(x, m, y)` of std_matrix_blas.cuh lines
55-74: one superaccumulator per component via `doDot_dispatch` (whose
shared-memory implementation is not under src and is taken as the
environment `dispatch`), components 1.. merged in order into component 0
(`acc[0].Accumulate(acc[i])`, modelled from the spec as exact addition)
and rounded (exact here).  For empty `x` the source reads `acc[0]` out
of bounds. -/
def stdDoDot (dispatch : List ℚ → MPI_Precon → List ℚ → ℚ)
    (x : List (List ℚ)) (m : MPI_Precon) (y : List (List ℚ)) :
    Except DgError ℚ :=
  match (List.range x.length).map
    (fun i => dispatch (x.getD i []) m (y.getD i [])) with
  | [] => Except.error DgError.outOfBounds
  | a :: rest => Except.ok (rest.foldl (fun s t => s + t) a)

/-- One-argument `doDot(m, y)` of std_matrix_blas.cuh lines 75-83:
`return doDot(y, m, y, ...)` — unlike its MPI counterpart, this overload
does return the computed value. -/
def stdDoDot_norm (dispatch : List ℚ → MPI_Precon → List ℚ → ℚ)
    (m : MPI_Precon) (y : List (List ℚ)) : Except DgError ℚ :=
  stdDoDot dispatch y m y

lemma getD_map_range (n i : ℕ) (g : ℕ → ℚ) (h : i < n) :
    ((List.range n).map g).getD i 0 = g i := by
  rw [List.getD_eq_getElem?_getD]
  simp [List.getElem?_map, List.getElem?_range h]

lemma doDotLocal_interior_congr (x x' y y' : MPI_Vector) (m : MPI_Precon)
    (hNx : x'.Nx = x.Nx) (hNy : x'.Ny = x.Ny) (hNz : x'.Nz = x.Nz)
    (hn : x'.n = x.n)
    (hx : ∀ k i j l, k < x.Nz → 1 ≤ i → i < x.Ny - 1 → 1 ≤ j →
      j < x.Nx - 1 → l < x.n →
      x'.data.getD (dotIdx x.Ny x.Nx x.n k i j l) 0 =
      x.data.getD (dotIdx x.Ny x.Nx x.n k i j l) 0)
    (hy : ∀ k i j l, k < x.Nz → 1 ≤ i → i < x.Ny - 1 → 1 ≤ j →
      j < x.Nx - 1 → l < x.n →
      y'.data.getD (dotIdx x.Ny x.Nx x.n k i j l) 0 =
      y.data.getD (dotIdx x.Ny x.Nx x.n k i j l) 0) :
    doDotLocal x' m y' = doDotLocal x m y := by
  unfold doDotLocal
  rw [hNx, hNy, hNz, hn]
  refine congrArg List.sum (List.map_congr_left ?_)
  intro k hk
  refine congrArg List.sum (List.map_congr_left ?_)
  intro i hi
  refine congrArg List.sum (List.map_congr_left ?_)
  intro j hj
  refine congrArg List.sum (List.map_congr_left ?_)
  intro l hl
  have hk' : k < x.Nz := List.mem_range.mp hk
  have hi' := List.mem_range'_1.mp hi
  have hj' := List.mem_range'_1.mp hj
  have hl' : l < x.n := List.mem_range.mp hl
  rw [hx k i j l hk' hi'.1 (by omega) hj'.1 (by omega) hl',
    hy k i j l hk' hi'.1 (by omega) hj'.1 (by omega) hl']

/-- C9: the distributed weighted dot product `doDot(x, m, y)` sums only
over interior indices (rows 1..Ny-2 and columns 1..Nx-2 of every
z-plane): for vectors of the same shape, any two input pairs that agree
on all interior entries yield the same value — the ghost/boundary layers
never affect the result. -/
theorem C9_doDot_reads_interior_only
    (x x' y y' : MPI_Vector) (m : MPI_Precon) (others : ℕ → ℚ)
    (hNx : x'.Nx = x.Nx) (hNy : x'.Ny = x.Ny) (hNz : x'.Nz = x.Nz)
    (hn : x'.n = x.n)
    (hx : ∀ k i j l, k < x.Nz → 1 ≤ i → i < x.Ny - 1 → 1 ≤ j →
      j < x.Nx - 1 → l < x.n →
      x'.data.getD (dotIdx x.Ny x.Nx x.n k i j l) 0 =
      x.data.getD (dotIdx x.Ny x.Nx x.n k i j l) 0)
    (hy : ∀ k i j l, k < x.Nz → 1 ≤ i → i < x.Ny - 1 → 1 ≤ j →
      j < x.Nx - 1 → l < x.n →
      y'.data.getD (dotIdx x.Ny x.Nx x.n k i j l) 0 =
      y.data.getD (dotIdx x.Ny x.Nx x.n k i j l) 0) :
    doDot x' m y' others = doDot x m y others := by
  unfold doDot
  rw [doDotLocal_interior_congr x x' y y' m hNx hNy hNz hn hx hy]

/-- Witness for C9: a 3x3 single-block plane; the two x inputs differ on
the whole ghost ring (9 vs 0) and the two y inputs likewise (1 vs 2),
yet the dot products coincide. -/
theorem C9_witness :
    doDot ⟨[0,0,0,0,5,0,0,0,0],3,3,1,1,0⟩ ⟨[1]⟩
      ⟨[2,2,2,2,7,2,2,2,2],3,3,1,1,0⟩ (fun _ => 0) =
    doDot ⟨[9,9,9,9,5,9,9,9,9],3,3,1,1,0⟩ ⟨[1]⟩
      ⟨[1,1,1,1,7,1,1,1,1],3,3,1,1,0⟩ (fun _ => 0) := by
  refine C9_doDot_reads_interior_only _ _ _ _ _ _ rfl rfl rfl rfl ?_ ?_ <;>
  · intro k i j l hk hi1 hi2 hj1 hj2 hl
    have hk' : k < 1 := hk
    have hi2' : i < 2 := hi2
    have hj2' : j < 2 := hj2
    have hl' : l < 1 := hl
    have hk0 : k = 0 := by omega
    have hi0 : i = 1 := by omega
    have hj0 : j = 1 := by omega
    have hl0 : l = 0 := by omega
    subst hk0; subst hi0; subst hj0; subst hl0
    decide

/-- C8 counterexample: the claim says the cross-process merge is over the
process group carried by the distributed objects.  With a vector
constructed over communicator 1 and an environment in which the other
ranks of the global communicator contribute 5 while those of
communicator 1 contribute 0, doDot returns the global merge, not the
merge over the vector's own communicator. -/
theorem C8_counterexample :
    doDot ⟨[],0,0,0,0,1⟩ ⟨[]⟩ ⟨[],0,0,0,0,1⟩
        (fun c => if c = 0 then 5 else 0) ≠
      doDotLocal ⟨[],0,0,0,0,1⟩ ⟨[]⟩ ⟨[],0,0,0,0,1⟩ +
        (fun c => if c = 0 then 5 else 0)
          (MPI_Vector.comm ⟨[],0,0,0,0,1⟩) := by
  simp [doDot, doDotLocal, MPI_COMM_WORLD]

/-- C8 (amended): the doDot allreduce always merges over the implicit
global communicator MPI_COMM_WORLD, regardless of the communicator the
vectors carry, while MPI_Matrix::symv performs its ghost exchanges over
the matrix's constructor-supplied communicator. -/
theorem C8_amended_communicator_usage :
    (∀ (x y : MPI_Vector) (m : MPI_Precon) (others : ℕ → ℚ),
      doDot x m y others = doDotLocal x m y + others MPI_COMM_WORLD)
    ∧ (∀ (xcol xrow : ℕ → MPI_Vector → MPI_Vector) (mat : MPI_Matrix)
        (x y : MPI_Vector) (c : ℕ),
        (symv xcol xrow mat x y).2.1 = some c ∨
          (symv xcol xrow mat x y).2.2 = some c → c = mat.comm) := by
  constructor
  · intro x y m others
    rfl
  · intro xcol xrow mat x y c h
    rcases h with h | h
    · by_cases hf : (symvUpdateXY mat).1
      · simp only [symv, hf, if_true] at h
        exact (Option.some.inj h).symm
      · simp only [symv, hf, if_false] at h
        exact absurd h (by simp)
    · by_cases hf : (symvUpdateXY mat).2
      · simp only [symv, hf, if_true] at h
        exact (Option.some.inj h).symm
      · simp only [symv, hf, if_false] at h
        exact absurd h (by simp)

/-- Witness for C8 (amended): a matrix constructed over communicator 7
with a non-empty x block reports its x exchange over communicator 7. -/
theorem C8_witness :
    (7 : ℕ) =
      (⟨⟨[]⟩, [[]], [[1]], [0], ⟨[],[],[]⟩, ⟨[],[],[]⟩, bc.PER, bc.PER, 7⟩ :
        MPI_Matrix).comm :=
  C8_amended_communicator_usage.2 (fun _ v => v) (fun _ v => v)
    ⟨⟨[]⟩, [[]], [[1]], [0], ⟨[],[],[]⟩, ⟨[],[],[]⟩, bc.PER, bc.PER, 7⟩
    ⟨[],0,0,0,0,0⟩ ⟨[],0,0,0,0,0⟩ 7 (Or.inl (by decide))

/-- C5 (code bug): at a concrete weight vector and 3x3 input, the
three-argument `doDot(x, m, x)` computes 50, but the one-argument MPI
`doDot(m, x)` produces no value at all — its body computes `doDot(x,m,x)`
and then falls off the end of the function without a `return` statement.
The vector-of-vectors overload of std_matrix_blas.cuh, by contrast, does
return `doDot(y, m, y)` for every inner dispatch. -/
theorem C5_norm_form_missing_return :
    doDot_norm ⟨[2]⟩ ⟨[1,2,3,4,5,6,7,8,9],3,3,1,1,0⟩ (fun _ => 0) = none
    ∧ doDot ⟨[1,2,3,4,5,6,7,8,9],3,3,1,1,0⟩ ⟨[2]⟩
        ⟨[1,2,3,4,5,6,7,8,9],3,3,1,1,0⟩ (fun _ => 0) = 50
    ∧ (∀ (dispatch : List ℚ → MPI_Precon → List ℚ → ℚ) (m : MPI_Precon)
        (y : List (List ℚ)),
        stdDoDot_norm dispatch m y = stdDoDot dispatch y m y) := by
  refine ⟨rfl, ?_, fun dispatch m y => rfl⟩
  show doDotLocal _ _ _ + (0 : ℚ) = 50
  norm_num [doDotLocal, dotIdx, List.range', List.range, List.range.loop]

/-- C2 counterexample: with assertions disabled (no DG_DEBUG — the
`assert(!x1.empty())` of filter.h line 1160 is inside `#ifdef DG_DEBUG`),
the reduction over an empty vector-of-vectors reads `acc[0]` of an empty
accumulator array — an out-of-bounds access, not a reported
InvalidArgument condition. -/
theorem C2_counterexample :
    doDot_superacc false [] [] = Except.error DgError.outOfBounds ∧
      DgError.outOfBounds ≠ DgError.invalidArgument :=
  ⟨rfl, by decide⟩

/-- C2 (amended): on an empty vector-of-vectors the reduction never
returns a zero result: with DG_DEBUG it dies on the `assert(!x1.empty())`
(an assertion failure, not a typed InvalidArgument condition); without
DG_DEBUG the emptiness check is compiled out and the code reads `acc[0]`
out of bounds. -/
theorem C2_empty_input_behaviour :
    ∀ (dbg : Bool) (x2 : List (List ℚ)),
      doDot_superacc dbg [] x2 =
        Except.error
          (if dbg then DgError.assertFail else DgError.outOfBounds) := by
  intro dbg x2
  cases dbg <;> simp [doDot_superacc]

/-- C6: for a weighting with non-empty data of stride s and equal-size
vectors whose size is a multiple of s, every entry of
`doSymv(alpha, m, x, beta, y)` equals
`alpha*m.data[i mod s]*x[i] + beta*y_old[i]`, and with `alpha = 0`,
`beta = 1` the vector is returned entirely unchanged. -/
theorem C6_doSymv_entrywise (alpha beta : ℚ) (m : MPI_Precon)
    (x y : MPI_Vector) (hm : m.data ≠ [])
    (hxy : x.data.length = y.data.length)
    (hmod : y.data.length % m.data.length = 0) :
    (∀ i, i < y.data.length →
      (doSymv alpha m x beta y).data.getD i 0 =
        alpha * m.data.getD (i % m.data.length) 0 * x.data.getD i 0 +
          beta * y.data.getD i 0)
    ∧ (alpha = 0 → beta = 1 → doSymv alpha m x beta y = y) := by
  constructor
  · intro i hi
    by_cases ha : alpha = 0
    · subst ha
      by_cases hb : beta = 1
      · subst hb
        simp only [doSymv, if_true, reduceIte]
        ring
      · simp only [doSymv, doAxpby, if_true, reduceIte, if_neg hb]
        rw [getD_map_range _ _ _ hi]
        ring
    · simp only [doSymv, if_neg ha]
      rw [writeLoop_getD, if_pos ⟨by omega, hi⟩]
  · intro ha hb
    subst ha; subst hb
    simp [doSymv]

/-- Witness for C6: with m = [2], x = [1,2], y = [10,20], alpha = 3,
beta = 5, entry 0 becomes 3*2*1 + 5*10 = 56. -/
theorem C6_witness :
    (doSymv 3 ⟨[2]⟩ ⟨[1,2],2,1,1,1,0⟩ 5 ⟨[10,20],2,1,1,1,0⟩).data.getD 0 0 =
      56 := by
  have h := (C6_doSymv_entrywise 3 5 ⟨[2]⟩ ⟨[1,2],2,1,1,1,0⟩
    ⟨[10,20],2,1,1,1,0⟩ (by decide) rfl (by decide)).1 0 (by decide)
  rw [h]
  norm_num

lemma symvUpdate_fold (mat : MPI_Matrix) (L : List ℕ) (init : Bool × Bool) :
    (L.foldl (fun fl k =>
        ((if mat.dataX.getD k [] = [] then fl.1 else true),
         (if mat.dataY.getD k [] = [] then fl.2 else true))) init) =
      ((init.1 || L.any (fun k => decide (mat.dataX.getD k [] ≠ []))),
       (init.2 || L.any (fun k => decide (mat.dataY.getD k [] ≠ [])))) := by
  induction L generalizing init with
  | nil => simp
  | cons a L ih =>
    rw [List.foldl_cons, ih]
    by_cases hX : mat.dataX.getD a [] = [] <;>
      by_cases hY : mat.dataY.getD a [] = [] <;>
        simp [hX, hY, Bool.or_comm, Bool.or_left_comm, Bool.or_assoc]

lemma symvUpdateXY_spec (mat : MPI_Matrix) :
    ((symvUpdateXY mat).1 = true ↔
      ∃ k, k < mat.dataX.length ∧ mat.dataX.getD k [] ≠ [])
    ∧ ((symvUpdateXY mat).2 = true ↔
      ∃ k, k < mat.dataX.length ∧ mat.dataY.getD k [] ≠ []) := by
  unfold symvUpdateXY
  rw [symvUpdate_fold]
  constructor <;> simp [List.any_eq_true, List.mem_range]

/-- C3: `MPI_Matrix::symv` performs the x-direction ghost exchange iff
some dataX coefficient block is non-empty and the y-direction exchange
iff some dataY block is non-empty (with the constructor invariant that
`dataY_` and `dataX_` have the same number of blocks); in a direction
whose blocks are all empty, no exchange is performed at all. -/
theorem C3_symv_exchange_iff_nonempty_blocks
    (xcol xrow : ℕ → MPI_Vector → MPI_Vector) (mat : MPI_Matrix)
    (x y : MPI_Vector) (hlen : mat.dataY.length = mat.dataX.length) :
    ((symv xcol xrow mat x y).2.1.isSome = true ↔
      ∃ k, k < mat.dataX.length ∧ mat.dataX.getD k [] ≠ [])
    ∧ ((symv xcol xrow mat x y).2.2.isSome = true ↔
      ∃ k, k < mat.dataY.length ∧ mat.dataY.getD k [] ≠ []) := by
  have h1 : (symv xcol xrow mat x y).2.1.isSome = (symvUpdateXY mat).1 := by
    by_cases hf : (symvUpdateXY mat).1 <;> simp [symv, hf]
  have h2 : (symv xcol xrow mat x y).2.2.isSome = (symvUpdateXY mat).2 := by
    by_cases hf : (symvUpdateXY mat).2 <;> simp [symv, hf]
  constructor
  · rw [h1]; exact (symvUpdateXY_spec mat).1
  · rw [h2, hlen]; exact (symvUpdateXY_spec mat).2

/-- Witness for C3: a matrix with blocks dataX = [[1],[]] and
dataY = [[],[]] exchanges in x and not in y. -/
theorem C3_witness :
    ((symv (fun _ v => v) (fun _ v => v)
      ⟨⟨[]⟩, [[],[]], [[1],[]], [0,0], ⟨[],[],[]⟩, ⟨[],[],[]⟩,
        bc.PER, bc.PER, 0⟩
      ⟨[],0,0,0,0,0⟩ ⟨[],0,0,0,0,0⟩).2.1.isSome = true) ∧
    (¬ ((symv (fun _ v => v) (fun _ v => v)
      ⟨⟨[]⟩, [[],[]], [[1],[]], [0,0], ⟨[],[],[]⟩, ⟨[],[],[]⟩,
        bc.PER, bc.PER, 0⟩
      ⟨[],0,0,0,0,0⟩ ⟨[],0,0,0,0,0⟩).2.2.isSome = true)) := by
  have h := C3_symv_exchange_iff_nonempty_blocks (fun _ v => v) (fun _ v => v)
    ⟨⟨[]⟩, [[],[]], [[1],[]], [0,0], ⟨[],[],[]⟩, ⟨[],[],[]⟩,
      bc.PER, bc.PER, 0⟩
    ⟨[],0,0,0,0,0⟩ ⟨[],0,0,0,0,0⟩ rfl
  constructor
  · exact h.1.mpr ⟨0, by decide⟩
  · intro hcon
    obtain ⟨k, hk, hne⟩ := h.2.mp hcon
    have hk2 : k < 2 := hk
    interval_cases k <;> exact hne (by decide)

/-- C10: the output of `MPI_Matrix::symv` does not depend on the prior
contents of the output vector: y is zeroed in full before any
contribution is accumulated, so two calls with the same matrix and input
but different (same-sized) initial y produce identical output data. -/
theorem C10_symv_independent_of_initial_y
    (xcol xrow : ℕ → MPI_Vector → MPI_Vector) (mat : MPI_Matrix)
    (x y1 y2 : MPI_Vector) (hlen : y1.data.length = y2.data.length) :
    (symv xcol xrow mat x y1).1.data = (symv xcol xrow mat x y2).1.data := by
  simp only [symv]
  rw [hlen]

/-- Witness for C10: same matrix and input, initial y data [1,2,3,4]
versus [5,6,7,8], identical outputs. -/
theorem C10_witness :
    (symv (fun _ v => v) (fun _ v => v)
      ⟨⟨[]⟩, [[]], [[1]], [0], ⟨[],[],[]⟩, ⟨[],[],[]⟩, bc.PER, bc.PER, 0⟩
      ⟨[1,2,3,4],2,2,1,1,0⟩ ⟨[1,2,3,4],2,2,1,1,0⟩).1.data =
    (symv (fun _ v => v) (fun _ v => v)
      ⟨⟨[]⟩, [[]], [[1]], [0], ⟨[],[],[]⟩, ⟨[],[],[]⟩, bc.PER, bc.PER, 0⟩
      ⟨[1,2,3,4],2,2,1,1,0⟩ ⟨[5,6,7,8],2,2,1,1,0⟩).1.data :=
  C10_symv_independent_of_initial_y (fun _ v => v) (fun _ v => v)
    ⟨⟨[]⟩, [[]], [[1]], [0], ⟨[],[],[]⟩, ⟨[],[],[]⟩, bc.PER, bc.PER, 0⟩
    ⟨[1,2,3,4],2,2,1,1,0⟩ ⟨[1,2,3,4],2,2,1,1,0⟩ ⟨[5,6,7,8],2,2,1,1,0⟩ rfl

/-- C7: the diagonal-weighting step of `MPI_Matrix::symv` runs iff the
matrix's preconditioner data is non-empty and runs strictly last: the
output equals the result of stages 1-3 (exchange, local block apply,
boundary correction) when `p_.data` is empty, and otherwise that result
scaled entrywise by `p.data[i mod stride]`. -/
theorem C7_symv_precon_last
    (xcol xrow : ℕ → MPI_Vector → MPI_Vector) (mat : MPI_Matrix)
    (x y : MPI_Vector) :
    ((symv xcol xrow mat x y).1.data =
      (if mat.p.data = [] then symvPrePrecon xcol xrow mat x y
       else doSymv2 mat.p (symvPrePrecon xcol xrow mat x y)
         (symvPrePrecon xcol xrow mat x y)))
    ∧ (mat.p.data ≠ [] →
        ∀ i, i < (symvPrePrecon xcol xrow mat x y).length →
        (symv xcol xrow mat x y).1.data.getD i 0 =
          mat.p.data.getD (i % mat.p.data.length) 0 *
            (symvPrePrecon xcol xrow mat x y).getD i 0) := by
  have hmain : (symv xcol xrow mat x y).1.data =
      (if mat.p.data = [] then symvPrePrecon xcol xrow mat x y
       else doSymv2 mat.p (symvPrePrecon xcol xrow mat x y)
         (symvPrePrecon xcol xrow mat x y)) := rfl
  refine ⟨hmain, ?_⟩
  intro hp i hi
  rw [hmain, if_neg hp]
  unfold doSymv2
  rw [writeLoop_getD, if_pos ⟨hi, hi⟩]

/-- Witness for C7: a 3x3 plane with one x-direction unit block and
preconditioner [2]; stages 1-3 leave 7 at the single interior entry 4,
the final preconditioner scale doubles it to 14. -/
theorem C7_witness :
    (symv (fun _ v => v) (fun _ v => v)
      ⟨⟨[2]⟩, [[]], [[1]], [0], ⟨[],[],[]⟩, ⟨[],[],[]⟩, bc.PER, bc.PER, 0⟩
      ⟨[0,0,0,0,7,0,0,0,0],3,3,1,1,0⟩
      ⟨[1,1,1,1,1,1,1,1,1],3,3,1,1,0⟩).1.data.getD 4 0 = 14 := by
  have h := (C7_symv_precon_last (fun _ v => v) (fun _ v => v)
    ⟨⟨[2]⟩, [[]], [[1]], [0], ⟨[],[],[]⟩, ⟨[],[],[]⟩, bc.PER, bc.PER, 0⟩
    ⟨[0,0,0,0,7,0,0,0,0],3,3,1,1,0⟩
    ⟨[1,1,1,1,1,1,1,1,1],3,3,1,1,0⟩).2 (by decide) 4 (by decide)
  rw [h]
  norm_num [symvPrePrecon, symvUpdateXY, localApply, applyX, applyY,
    dataXWrites, dataYWrites, accumList, zeroWrites, getZ, setZ,
    List.range_succ, List.range'_one, List.range'_zero, List.flatMap_cons,
    List.flatMap_nil, List.foldl_cons, List.foldl_nil, List.set,
    Int.toNat_ofNat, List.getElem_cons_succ, List.getElem_cons_zero,
    show Int.toNat 4 = 4 from rfl]

/-- An output entry targeted by a boundary-term row of applyX: the index
written by block `m` at z-plane `s`, interior y-row `i`, block rows `k`
and `l`, at x-column `row_[m]+1`. -/
def targetedX (bt : BoundaryTerms) (x : MPI_Vector) (idx : ℤ) : Prop :=
  ∃ m s i k l, m < bt.data.length ∧ s < x.Nz ∧ 1 ≤ i ∧ i < x.Ny - 1 ∧
    k < x.n ∧ l < x.n ∧
    idx = (((((s * x.Ny + i) * x.n + k) * x.Nx : ℕ) : ℤ) +
      bt.row.getD m 0 + 1) * x.n + l

/-- An output entry targeted by a boundary-term row of applyY: the index
written by block `m` at z-plane `s`, y-row `row_[m]+1`, block rows `k`
and `l`, at interior x-column `j`. -/
def targetedY (bt : BoundaryTerms) (x : MPI_Vector) (idx : ℤ) : Prop :=
  ∃ m s k j l, m < bt.data.length ∧ s < x.Nz ∧ k < x.n ∧ 1 ≤ j ∧
    j < x.Nx - 1 ∧ l < x.n ∧
    idx = (((((s * x.Ny : ℕ) : ℤ) + bt.row.getD m 0 + 1) * x.n + k) *
      x.Nx + j) * x.n + l

/-- The pure boundary-term contribution of applyX to one output entry:
the sum of all accumulation writes of the second loop nest aimed at that
index.  It depends only on the table and the input vector, never on the
previous output contents. -/
def applyXContrib (bt : BoundaryTerms) (x : MPI_Vector) (idx : ℤ) : ℚ :=
  (((applyXAccWrites bt x.data x.Nz x.Ny x.Nx x.n).filter
    (fun w => w.1 == idx)).map Prod.snd).sum

/-- The pure boundary-term contribution of applyY to one output entry. -/
def applyYContrib (bt : BoundaryTerms) (x : MPI_Vector) (idx : ℤ) : ℚ :=
  (((applyYAccWrites bt x.data x.Nz x.Ny x.Nx x.n).filter
    (fun w => w.1 == idx)).map Prod.snd).sum

lemma targetedX_mem_zeroIdx (bt : BoundaryTerms) (x : MPI_Vector) (idx : ℤ)
    (ht : targetedX bt x idx) :
    idx ∈ applyXZeroIdx bt x.Nz x.Ny x.Nx x.n := by
  obtain ⟨m, s, i, k, l, hm, hs, hi1, hi2, hk, hl, hidx⟩ := ht
  unfold applyXZeroIdx
  refine List.mem_flatMap.mpr ⟨m, List.mem_range.mpr hm, ?_⟩
  refine List.mem_flatMap.mpr ⟨s, List.mem_range.mpr hs, ?_⟩
  refine List.mem_flatMap.mpr ⟨i, List.mem_range'_1.mpr ⟨hi1, by omega⟩, ?_⟩
  refine List.mem_flatMap.mpr ⟨k, List.mem_range.mpr hk, ?_⟩
  refine List.mem_flatMap.mpr ⟨l, List.mem_range.mpr hl, ?_⟩
  exact List.mem_map.mpr ⟨0, List.mem_range.mpr (by omega), hidx.symm⟩

lemma targetedY_mem_zeroIdx (bt : BoundaryTerms) (x : MPI_Vector) (idx : ℤ)
    (ht : targetedY bt x idx) :
    idx ∈ applyYZeroIdx bt x.Nz x.Ny x.Nx x.n := by
  obtain ⟨m, s, k, j, l, hm, hs, hk, hj1, hj2, hl, hidx⟩ := ht
  unfold applyYZeroIdx
  refine List.mem_flatMap.mpr ⟨m, List.mem_range.mpr hm, ?_⟩
  refine List.mem_flatMap.mpr ⟨s, List.mem_range.mpr hs, ?_⟩
  refine List.mem_flatMap.mpr ⟨k, List.mem_range.mpr hk, ?_⟩
  refine List.mem_flatMap.mpr ⟨j, List.mem_range'_1.mpr ⟨hj1, by omega⟩, ?_⟩
  refine List.mem_flatMap.mpr ⟨l, List.mem_range.mpr hl, ?_⟩
  exact List.mem_map.mpr ⟨0, List.mem_range.mpr (by omega), hidx.symm⟩

lemma applyX_targeted_getZ (bt : BoundaryTerms) (x : MPI_Vector)
    (y : List ℚ) (idx : ℤ) (ht : targetedX bt x idx) (h0 : 0 ≤ idx)
    (h1 : idx.toNat < y.length) :
    getZ (applyX bt x y) idx = applyXContrib bt x idx := by
  have hne : bt.data ≠ [] := by
    obtain ⟨m, s, i, k, l, hm, -⟩ := ht
    intro hcon
    rw [hcon] at hm
    simp at hm
  unfold applyX
  rw [if_neg hne]
  have hlen1 : idx.toNat <
      (zeroWrites (applyXZeroIdx bt x.Nz x.Ny x.Nx x.n) y).length := by
    rw [zeroWrites_length]; exact h1
  rw [getZ_accumList _ _ _ h0 hlen1, getZ_zeroWrites _ _ _ h0 h1,
    if_pos (targetedX_mem_zeroIdx bt x idx ht)]
  rw [zero_add]
  rfl

lemma applyY_targeted_getZ (bt : BoundaryTerms) (x : MPI_Vector)
    (y : List ℚ) (idx : ℤ) (ht : targetedY bt x idx) (h0 : 0 ≤ idx)
    (h1 : idx.toNat < y.length) :
    getZ (applyY bt x y) idx = applyYContrib bt x idx := by
  have hne : bt.data ≠ [] := by
    obtain ⟨m, s, k, j, l, hm, -⟩ := ht
    intro hcon
    rw [hcon] at hm
    simp at hm
  unfold applyY
  rw [if_neg hne]
  have hlen1 : idx.toNat <
      (zeroWrites (applyYZeroIdx bt x.Nz x.Ny x.Nx x.n) y).length := by
    rw [zeroWrites_length]; exact h1
  rw [getZ_accumList _ _ _ h0 hlen1, getZ_zeroWrites _ _ _ h0 h1,
    if_pos (targetedY_mem_zeroIdx bt x idx ht)]
  rw [zero_add]
  rfl

/-- C4: the boundary-correction steps overwrite rather than accumulate.
At every in-range output entry targeted by a boundary-term row, applyX
(resp. applyY) first zeroes the entry and then accumulates only the
boundary-term products, so the final value there equals the pure
boundary-term contribution — a quantity independent of the previous
output contents, so whatever the interior stencil accumulated there is
discarded. -/
theorem C4_boundary_terms_overwrite (bt : BoundaryTerms) (x : MPI_Vector)
    (y : List ℚ) :
    (∀ idx, targetedX bt x idx → 0 ≤ idx → idx.toNat < y.length →
      getZ (applyX bt x y) idx = applyXContrib bt x idx)
    ∧ (∀ idx, targetedY bt x idx → 0 ≤ idx → idx.toNat < y.length →
      getZ (applyY bt x y) idx = applyYContrib bt x idx) :=
  ⟨fun idx ht h0 h1 => applyX_targeted_getZ bt x y idx ht h0 h1,
   fun idx ht h0 h1 => applyY_targeted_getZ bt x y idx ht h0 h1⟩

/-- Witness for C4: one boundary block [[2]] with row 0 and column 1 on a
3x3 plane targets output entry 4; its value after applyX is
2 * x[5] = 18, even though the previous output held 5 there. -/
theorem C4_witness :
    getZ (applyX ⟨[[2]],[0],[1]⟩ ⟨[0,0,0,0,0,9,0,0,0],3,3,1,1,0⟩
      [1,2,3,4,5,6,7,8,9]) 4 = 18 := by
  have h := (C4_boundary_terms_overwrite ⟨[[2]],[0],[1]⟩
    ⟨[0,0,0,0,0,9,0,0,0],3,3,1,1,0⟩ [1,2,3,4,5,6,7,8,9]).1 4
    ⟨0, 0, 1, 0, 0, by norm_num⟩ (by norm_num) (by norm_num)
  rw [h]
  norm_num [applyXContrib, applyXAccWrites, getZ,
    List.range_succ, List.range'_one, List.range'_zero, List.flatMap_cons,
    List.flatMap_nil, List.filter, Int.toNat_ofNat,
    show Int.toNat 5 = 5 from rfl]
